import Mathlib

/-!
Verification of the storage-strategy engine (`rstrategies.py` and its
instantiation in `topaz/objects/arrayobject.py`).

The Python classes are shallowly embedded: each strategy instance becomes a
value of an inductive type carrying its payload, mutating methods become pure
functions returning the updated payload, and fallible code returns
`Option`/`Except`.  Machine integers in the source are RPython ints; the
strategies never perform arithmetic that can overflow (sizes and indices
only), so they are modelled as `Nat`/`Int`.
-/

namespace RStrategies

/-! ### Classification (`StrategyFactory.strategy_type_for`)

The registry holds the strategy kinds in the order produced by
`order_strategies` (generalization depth descending) together with the
capability test of each kind's singleton probe instance
(`_strategy_instance.check_can_handle`). -/

structure Registry (K V : Type) where
  kinds : List K
  check : K → V → Bool

/-- One pass of the inner loop of `strategy_type_for`: for every entry of the
`can_handle` table, a kind that was still capable but rejects `v` is marked
incapable (`can_handle[i] and not check_can_handle(obj)` clears the flag). -/
def stepSt {K V : Type} (check : K → V → Bool) (v : V) (st : List (K × Bool)) :
    List (K × Bool) :=
  st.map (fun kf => (kf.1, kf.2 && check kf.1 v))

/-- Number of `True` entries of the `can_handle` table; the Python code keeps
this count incrementally in `specialized_strategies`. -/
def countT {K : Type} (st : List (K × Bool)) : Nat :=
  st.countP (fun kf => kf.2)

/-- The outer loop of `strategy_type_for`: iterate over the objects, breaking
out as soon as at most one strategy remains capable
(`if specialized_strategies <= 1: break`); `cnt` mirrors the incrementally
maintained `specialized_strategies` counter. -/
def classifyLoop {K V : Type} (check : K → V → Bool) :
    List V → List (K × Bool) → Nat → List (K × Bool)
  | [], st, _ => st
  | v :: vs, st, cnt =>
    if cnt ≤ 1 then st
    else
      classifyLoop check vs (stepSt check v st)
        (cnt - (countT st - countT (stepSt check v st)))

/-- `StrategyFactory.strategy_type_for(objects)`: run the elimination loop
starting from an all-`True` `can_handle` table, then return the first strategy
(in registry order) still marked capable; the final `raise Exception` is
modelled as `none`. -/
def strategy_type_for {K V : Type} (R : Registry K V) (objects : List V) :
    Option K :=
  let fin := classifyLoop R.check objects (R.kinds.map (fun k => (k, true)))
      R.kinds.length
  (fin.find? (fun kf => kf.2)).map (fun kf => kf.1)

/-- The elimination loop without the early exit: every element of the input is
processed. -/
def classifyLoopFull {K V : Type} (check : K → V → Bool) :
    List V → List (K × Bool) → List (K × Bool)
  | [], st => st
  | v :: vs, st => classifyLoopFull check vs (stepSt check v st)

/-- Modelled from the spec: the exhaustive classification that "tests every
still-capable kind against every element of the sequence" and then returns
the first kind still marked capable.  This is the comparison definition for
the refinement claim about the early-exit optimization. -/
def classifyExhaustive {K V : Type} (R : Registry K V) (objects : List V) :
    Option K :=
  let fin := classifyLoopFull R.check objects (R.kinds.map (fun k => (k, true)))
  (fin.find? (fun kf => kf.2)).map (fun kf => kf.1)

/-- A registry is well formed when it contains a catch-all kind: one whose
capability test accepts every value. -/
def isCatchAll {K V : Type} (R : Registry K V) : Prop :=
  ∃ k ∈ R.kinds, ∀ v, R.check k v = true

/-- A `can_handle` table still contains a capable catch-all entry. -/
def aliveCatch {K V : Type} (check : K → V → Bool) (st : List (K × Bool)) :
    Prop :=
  ∃ kf ∈ st, kf.2 = true ∧ ∀ v, check kf.1 v = true

/-! ### The topaz array instantiation (`topaz/objects/arrayobject.py`)

Ruby objects as the strategies see them: fixnums (`W_FixnumObject`, payload
`intvalue`), floats (`W_FloatObject`, payload `floatvalue`, kept opaque as an
`Int` tag since the strategies never compute with it, only box and unbox it),
`nil`, and all other objects (opaque tag). -/

inductive W : Type
  | nil : W
  | fixnum (n : Int) : W
  | flt (x : Int) : W
  | obj (o : Nat) : W
deriving DecidableEq

/-- The four registered strategy kinds of the topaz array object. -/
inductive Kind : Type
  | empty | int | flt | obj
deriving DecidableEq

/-- `check_can_handle` of each kind's probe instance: `EmptyStrategy` accepts
nothing, `IntStrategy`/`FloatStrategy` accept exactly their contained type
(`isinstance` test of `SingleTypeStrategy`), `ObjectStrategy` (the
`GenericStrategy`) accepts everything. -/
def checkK : Kind → W → Bool
  | .empty, _ => false
  | .int, .fixnum _ => true
  | .int, _ => false
  | .flt, .flt _ => true
  | .flt, _ => false
  | .obj, _ => true

/-- The `generalize=[...]` lists of the `@rstrat.strategy` decorators in
`arrayobject.py` (`ObjectStrategy` is declared with no generalizations). -/
def genListK : Kind → List Kind
  | .obj => []
  | .int => [.obj]
  | .flt => [.obj]
  | .empty => [.flt, .int, .obj]

/-- Generalization depth as computed by `get_generalization_depth` in
`order_strategies` (0 for a kind without generalizations, else 1 + max over
the generalizations); the values are spelled out, and
`depthK_matches_recurrence` below checks them against the recurrence. -/
def depthK : Kind → Nat
  | .obj => 0
  | .int => 1
  | .flt => 1
  | .empty => 2

/-- The registry built by `StrategyFactory.__init__` for the topaz array:
subclass collection order is `[obj, int, flt, empty]` (class definition
order); the stable sort by descending generalization depth yields
`[empty, int, flt, obj]`. -/
def topazRegistry : Registry Kind W :=
  ⟨[Kind.empty, Kind.int, Kind.flt, Kind.obj], checkK⟩

/-- `generalized_strategy_for(value)`: the first declared generalization whose
probe instance can handle `value`; exhaustion raises (`none`).  A kind
declared without generalizations (ObjectStrategy) has no such method at all,
which is also modelled as `none`. -/
def generalized_strategy_forK (k : Kind) (v : W) : Option Kind :=
  (genListK k).find? (fun g => checkK g v)

/-- `IntStrategy.unwrap`: `w_val.intvalue` (guarded by `check_can_handle`,
the non-fixnum branches are unreachable). -/
def unwrapInt : W → Int
  | .fixnum n => n
  | _ => 0

/-- `FloatStrategy.unwrap`: `w_val.floatvalue` (guarded by
`check_can_handle`). -/
def unwrapFlt : W → Int
  | .flt x => x
  | _ => 0

/-- A live strategy instance of the topaz array: its kind plus its
representation-specific payload (`EmptyStrategy` has none, the other kinds
hold their `storage` list: unboxed ints for `IntStrategy`, unboxed floats for
`FloatStrategy`, boxed objects for `ObjectStrategy`). -/
inductive Inst : Type
  | empty : Inst
  | intS (storage : List Int) : Inst
  | fltS (storage : List Int) : Inst
  | objS (storage : List W) : Inst
deriving DecidableEq

def kindOf : Inst → Kind
  | .empty => .empty
  | .intS _ => .int
  | .fltS _ => .flt
  | .objS _ => .obj

/-- `size()`: 0 for `EmptyStrategy`, `len(self.storage)` for the
storage-backed kinds. -/
def sizeI : Inst → Nat
  | .empty => 0
  | .intS l => l.length
  | .fltS l => l.length
  | .objS l => l.length

/-- `strategy_class(space, w_arr, size)`, i.e. `init_strategy(size)`:
`EmptyStrategy` ignores the size; a storage-backed kind allocates
`[default_value] * size` (`wrap(0)` for int and float, `w_nil` for
ObjectStrategy). -/
def instantiateK : Kind → Nat → Inst
  | .empty, _ => .empty
  | .int, n => .intS (List.replicate n 0)
  | .flt, n => .fltS (List.replicate n 0)
  | .obj, n => .objS (List.replicate n W.nil)

/-- `fetch(index0)` with the topaz `UnsafeIndexingMixin` (no bounds check):
`EmptyStrategy.fetch` raises IndexError unconditionally; a storage-backed
kind reads `storage[index0]` and wraps it (an out-of-range read is a failure,
`none`). -/
def fetchI : Inst → Nat → Option W
  | .empty, _ => none
  | .intS l, i => (l.get? i).map W.fixnum
  | .fltS l, i => (l.get? i).map W.flt
  | .objS l, i => l.get? i

/-- `store(index0, wrapped_value)` with the `UnsafeIndexingMixin`: when
`check_can_handle` holds the unwrapped value is assigned to
`storage[index0]`; otherwise `cannot_handle_store` escalates to a freshly
generalized instance (the present instance's own payload is left untouched —
the incoming value goes to the new instance, never to this one).
`EmptyStrategy.store` always takes the escalation path. -/
def storeI : Inst → Nat → W → Inst
  | .empty, _, _ => .empty
  | .intS l, i, v => if checkK .int v then .intS (l.set i (unwrapInt v)) else .intS l
  | .fltS l, i, v => if checkK .flt v then .fltS (l.set i (unwrapFlt v)) else .fltS l
  | .objS l, i, v => .objS (l.set i v)

/-- The logical contents of an instance: what `fetch` yields position by
position (wrapped storage). -/
def contents : Inst → List W
  | .empty => []
  | .intS l => l.map W.fixnum
  | .fltS l => l.map W.flt
  | .objS l => l

/-- `slice(start, end)`: `[self.fetch(i) for i in range(start, end)]`. -/
def sliceI (s : Inst) (start stop : Nat) : Option (List W) :=
  (List.range' start (stop - start)).mapM (fetchI s)

/-- `fetch_all()`: `self.slice(0, self.size())`. -/
def fetch_allI (s : Inst) : Option (List W) :=
  sliceI s 0 (sizeI s)

/-- `AbstractCollection.copy_from(other)` (reached via
`initiate_copy_into`, `self` being the freshly instantiated target):
`assert self.size() == other.size()` (failure is `none`), then
`self.store(i, other.fetch(i))` for every `i` in `range(self.size())`. -/
def copy_fromI (tgt other : Inst) : Option Inst :=
  if sizeI tgt = sizeI other then
    (List.range (sizeI tgt)).foldlM
      (fun t i => (fetchI other i).map (fun v => storeI t i v)) tgt
  else none

/-- `StrategyFactory.switch_strategy(old, new_strategy_type)` combined with
the topaz `instantiate_and_switch`: instantiate the target kind with
`old_strategy.size()`, transfer the contents through `copy_from`, run the
`strategy_switched` hook (a no-op for these kinds) and return the new
instance.  (`instantiate_and_switch` also assigns `w_arr.strategy`; that
side effect is modelled separately by `switchTrace`.) -/
def switch_strategyI (old : Inst) (K : Kind) : Option Inst :=
  copy_fromI (instantiateK K (sizeI old)) old

/-- A sequence of switches: each `switch_strategy` result becomes the
instance the next switch starts from. -/
def switchChain (old : Inst) (Ks : List Kind) : Option Inst :=
  Ks.foldlM (fun s K => switch_strategyI s K) old

/-! ### Observable event order of a switch

`switch_strategy` first calls `instantiate_and_switch`, whose body executes
`w_arr.strategy = instance` (the host reference assignment), and only then
runs the element-wise copy, the hook and the log call.  The trace records
these observable actions in program order. -/

inductive Ev : Type
  | assignRef : Ev
  | storeEv (i : Nat) : Ev
  | hook : Ev
  | logEv : Ev
deriving DecidableEq

/-- The observable actions of one `switch_strategy` call, in source order:
the host reference assignment inside `instantiate_and_switch`, then one
store per copied element (none if the size assertion fails, which aborts the
call before the hook and the log event). -/
def switchTrace (old : Inst) (K : Kind) : List Ev :=
  Ev.assignRef ::
    (if sizeI (instantiateK K (sizeI old)) = sizeI old then
      (List.range (sizeI (instantiateK K (sizeI old)))).map Ev.storeEv ++
        [Ev.hook, Ev.logEv]
    else [])

/-- The ordering property asserted by the claim: every element store of the
Copy/Convert transfer happens before the host reference assignment (no store
event after an `assignRef`). -/
def storesPrecedeAssign : List Ev → Bool
  | [] => true
  | Ev.assignRef :: rest =>
    rest.all (fun e => match e with | Ev.storeEv _ => false | _ => true)
  | _ :: rest => storesPrecedeAssign rest

/-! ### Library-level strategies and indexing policies (`rstrategies.py`)

The mixin-composed classes are modelled parametrically: `U` is the unboxed
slot type of a `StrategyWithStorage`, `A` the boxed value type. -/

/-- The errors the engine can raise: `IndexError` from the checked indexing
policy (and from Python sequence access), `AssertionError` from a failed
`assert`, `NameError` from evaluating an unbound name. -/
inductive PyErr : Type
  | indexError | assertionError | nameError
deriving DecidableEq

/-- The two indexing mixins: `SafeIndexingMixin` (checked) and
`UnsafeIndexingMixin` (unchecked). -/
inductive Policy : Type
  | checked | unchecked
deriving DecidableEq

/-- `SafeIndexingMixin.check_index`: `if index0 < 0 or index0 >= self.size():
raise IndexError`. -/
def check_index (size : Int) (index0 : Int) : Except PyErr Unit :=
  if index0 < 0 ∨ size ≤ index0 then .error .indexError else .ok ()

/-- `check_index_fetch` under each policy: the safe mixin validates, the
unchecked mixin is `pass`. -/
def check_index_fetchP : Policy → Int → Int → Except PyErr Unit
  | .checked, size, i => check_index size i
  | .unchecked, _, _ => .ok ()

/-- `check_index_store` under each policy. -/
def check_index_storeP : Policy → Int → Int → Except PyErr Unit
  | .checked, size, i => check_index size i
  | .unchecked, _, _ => .ok ()

/-- `check_index_range` under each policy: the safe mixin raises when
`end < start` and validates both endpoints with `check_index`. -/
def check_index_rangeP : Policy → Int → Int → Int → Except PyErr Unit
  | .checked, size, start, stop =>
    if stop < start then .error .indexError
    else
      match check_index size start with
      | .error e => .error e
      | .ok _ => check_index size stop
  | .unchecked, _, _, _ => .ok ()

/-- Python sequence read `l[i]`: a negative index counts from the end, and a
position outside the list raises IndexError. -/
def pyGetElem {U : Type} (l : List U) (i : Int) : Except PyErr U :=
  let j := if i < 0 then i + (l.length : Int) else i
  if j < 0 then .error .indexError
  else
    match l.get? j.toNat with
    | some u => .ok u
    | none => .error .indexError

/-- `StrategyWithStorage.fetch(index0)`: run the policy's
`check_index_fetch`, read `storage[index0]` and `_wrap` it.  The read is
pure: the instance is not modified. -/
def fetchS {U A : Type} (wrap : U → A) (p : Policy) (st : List U) (i : Int) :
    Except PyErr A :=
  match check_index_fetchP p st.length i with
  | .error e => .error e
  | .ok _ =>
    match pyGetElem st i with
    | .error e => .error e
    | .ok u => .ok (wrap u)

/-- `SingleValueStrategy.fetch(index0)`: run the policy's
`check_index_fetch`, then return `self.value()` — there is no backing
array. -/
def fetchSV {A : Type} (p : Policy) (c : A) (size : Int) (i : Int) :
    Except PyErr A :=
  match check_index_fetchP p size i with
  | .error e => .error e
  | .ok _ => .ok c

/-- Python `del l[start:stop]` for non-negative bounds (the only case the
code reaches, behind its `assert`): drop the positions in `[start, stop)`,
both clamped to the length; an empty or inverted range removes nothing. -/
def pyDelSlice {U : Type} (l : List U) (start stop : Int) : List U :=
  let s := min start.toNat l.length
  let t := min stop.toNat l.length
  l.take s ++ l.drop (max s t)

/-- `StrategyWithStorage.delete(start, end)`: policy range check, then
`assert start >= 0 and end >= 0` (an RPython slice-bound assertion), then
`del self.storage[start:end]`. -/
def deleteS {U : Type} (p : Policy) (st : List U) (start stop : Int) :
    Except PyErr (List U) :=
  match check_index_rangeP p st.length start stop with
  | .error e => .error e
  | .ok _ =>
    if start < 0 ∨ stop < 0 then .error .assertionError
    else .ok (pyDelSlice st start stop)

/-- `SingleValueStrategy.delete(start, end)`: policy range check, then
`self._size -= (end - start)`. -/
def deleteSV (p : Policy) (size : Int) (start stop : Int) :
    Except PyErr Int :=
  match check_index_rangeP p size start stop with
  | .error e => .error e
  | .ok _ => .ok (size - (stop - start))

/-- `EmptyStrategy.delete(start, end)`: only the policy range check runs
(against `size() == 0`); nothing is modified. -/
def deleteE (p : Policy) (start stop : Int) : Except PyErr Unit :=
  check_index_rangeP p 0 start stop

/-- Python `l.insert(pos, x)`: a negative position counts from the end
(clamped to 0), a position past the end appends. -/
def pyListInsert {U : Type} (l : List U) (pos : Int) (x : U) : List U :=
  let p : Nat := if pos < 0 then (pos + (l.length : Int)).toNat
    else min pos.toNat l.length
  l.take p ++ x :: l.drop p

/-- The element loop of `StrategyWithStorage.insert`: while
`check_can_handle(list_w[i])` holds the unwrapped value is inserted at
`start + i`; at the first unhandleable value the loop stops and
`cannot_handle_insert(start + i, list_w[i:])` delegates the whole remaining
suffix (returned here as the pending escalation request). -/
def insertLoop {U A : Type} (canH : A → Bool) (unwrap : A → U) :
    List U → Int → List A → List U × Option (Int × List A)
  | st, _, [] => (st, none)
  | st, pos, a :: rest =>
    if canH a then insertLoop canH unwrap (pyListInsert st pos (unwrap a)) (pos + 1) rest
    else (st, some (pos, a :: rest))

/-- `StrategyWithStorage.insert(start, list_w)`: clamp `start` to the
current size (`if start > self.size(): start = self.size()`), then run the
element loop.  No `check_index_*` method of the indexing mixin is consulted,
so the result does not depend on the policy and no IndexError is raised. -/
def insertS {U A : Type} (canH : A → Bool) (unwrap : A → U) (st : List U)
    (start : Int) (list_w : List A) :
    Except PyErr (List U × Option (Int × List A)) :=
  .ok (insertLoop canH unwrap st
    (if (st.length : Int) < start then (st.length : Int) else start) list_w)

/-- `SingleValueStrategy.insert(index0, list_w)` as written in the source:

    for i in range(len(list_w)):
        if self.check_can_handle(list_w[handled]):
            self._size += 1
        else:
            self.cannot_handle_insert(index0 + i, list_w[i:])
            return

The loop guard indexes `list_w` with `handled`, a name that is bound nowhere
in the program, so the first iteration raises `NameError`; only an empty
`list_w` (loop body never entered) returns normally, with the size
unchanged. -/
def insertSV {A : Type} (c : A) (size : Int) (index0 : Int) (list_w : List A) :
    Except PyErr Int :=
  if list_w.isEmpty then .ok size else .error .nameError

/-! ### `TaggingStrategy` (`rstrategies.py`)

Parameters of the class: the contained primitive type (`isinstance` test
`contained`), `unwrap`, the one distinguished tagged object
(`wrapped_tagged_value`) and the reserved unboxed sentinel pattern
(`unwrapped_tagged_value`). -/

/-- `TaggingStrategy.check_can_handle(value)`:
`value is self.wrapped_tagged_value() or (isinstance(value,
self.contained_type) and self.unwrap(value) != self.unwrapped_tagged_value())`. -/
def taggingCheckCanHandle {A P : Type} [DecidableEq A] [DecidableEq P]
    (contained : A → Bool) (unwrap : A → P) (tagged : A) (sentinel : P)
    (v : A) : Bool :=
  decide (v = tagged) || (contained v && decide (unwrap v ≠ sentinel))

lemma countT_cons {K : Type} (k : K) (b : Bool) (rest : List (K × Bool)) :
    countT ((k, b) :: rest) = countT rest + (if b then 1 else 0) := by
  cases b <;> simp [countT, List.countP_cons]

lemma countT_eq_zero {K : Type} {st : List (K × Bool)} (h : countT st = 0) :
    ∀ kf ∈ st, kf.2 = false := by
  induction st with
  | nil => intro kf hkf; simp at hkf
  | cons a rest ih =>
    rcases a with ⟨k, b⟩
    rw [countT_cons] at h
    cases b
    · intro kf hkf
      rcases List.mem_cons.1 hkf with h1 | h1
      · rw [h1]
      · exact ih (by omega) kf h1
    · simp at h

lemma countT_step_le {K V : Type} (check : K → V → Bool) (v : V)
    (st : List (K × Bool)) : countT (stepSt check v st) ≤ countT st := by
  induction st with
  | nil => simp [stepSt, countT]
  | cons kf rest ih =>
    rcases kf with ⟨k, b⟩
    have hstep : stepSt check v ((k, b) :: rest) =
        (k, b && check k v) :: stepSt check v rest := rfl
    rw [hstep, countT_cons, countT_cons]
    cases b <;> cases h : check k v <;> simp <;> omega

lemma aliveCatch_step {K V : Type} (check : K → V → Bool) (v : V)
    {st : List (K × Bool)} (h : aliveCatch check st) :
    aliveCatch check (stepSt check v st) := by
  obtain ⟨kf, hmem, hflag, hall⟩ := h
  refine ⟨(kf.1, kf.2 && check kf.1 v), ?_, ?_, hall⟩
  · exact List.mem_map.2 ⟨kf, hmem, rfl⟩
  · simp [hflag, hall v]

lemma step_id_of_allFalse {K V : Type} (check : K → V → Bool) (v : V)
    {st : List (K × Bool)} (h : countT st = 0) : stepSt check v st = st := by
  induction st with
  | nil => rfl
  | cons kf rest ih =>
    rcases kf with ⟨k, b⟩
    rw [countT_cons] at h
    cases b
    · have hrest : countT rest = 0 := by omega
      have hstep : stepSt check v ((k, false) :: rest) =
          (k, false && check k v) :: stepSt check v rest := rfl
      rw [hstep, ih hrest]
      simp
    · simp at h

lemma step_id_of_single {K V : Type} (check : K → V → Bool) (v : V)
    {st : List (K × Bool)} (hcnt : countT st ≤ 1) (halive : aliveCatch check st) :
    stepSt check v st = st := by
  induction st with
  | nil => rfl
  | cons kf rest ih =>
    rcases kf with ⟨k, b⟩
    rw [countT_cons] at hcnt
    cases b
    · -- head incapable: the catch-all entry lives in the tail
      obtain ⟨kg, hmem, hflag, hall⟩ := halive
      have hmem2 : kg ∈ rest := by
        rcases List.mem_cons.1 hmem with h | h
        · exfalso; rw [h] at hflag; simp at hflag
        · exact h
      have hcnt2 : countT rest ≤ 1 := by simp at hcnt; omega
      have hstep : stepSt check v ((k, false) :: rest) =
          (k, false && check k v) :: stepSt check v rest := rfl
      rw [hstep, ih hcnt2 ⟨kg, hmem2, hflag, hall⟩]
      simp
    · -- head capable: all tail entries are incapable, and the alive catch-all
      -- entry must therefore be the head itself
      have hrest : countT rest = 0 := by simp at hcnt; omega
      obtain ⟨kg, hmem, hflag, hall⟩ := halive
      have hk : ∀ w, check k w = true := by
        rcases List.mem_cons.1 hmem with h | h
        · rw [h] at hall; exact hall
        · exfalso
          have := countT_eq_zero hrest kg h
          rw [hflag] at this
          simp at this
      have hstep : stepSt check v ((k, true) :: rest) =
          (k, true && check k v) :: stepSt check v rest := rfl
      rw [hstep, step_id_of_allFalse check v hrest, hk v]
      simp

lemma classifyLoopFull_id_of_single {K V : Type} (check : K → V → Bool)
    (vs : List V) {st : List (K × Bool)} (hcnt : countT st ≤ 1)
    (halive : aliveCatch check st) : classifyLoopFull check vs st = st := by
  induction vs with
  | nil => rfl
  | cons v vs ih =>
    rw [classifyLoopFull, step_id_of_single check v hcnt halive]
    exact ih

lemma classifyLoop_eq_full {K V : Type} (check : K → V → Bool)
    (vs : List V) : ∀ (st : List (K × Bool)), aliveCatch check st →
    classifyLoop check vs st (countT st) = classifyLoopFull check vs st := by
  induction vs with
  | nil => intro st _; rfl
  | cons v vs ih =>
    intro st halive
    by_cases hcnt : countT st ≤ 1
    · rw [classifyLoop, if_pos hcnt,
        classifyLoopFull, step_id_of_single check v hcnt halive,
        classifyLoopFull_id_of_single check vs hcnt halive]
    · rw [classifyLoop, if_neg hcnt, classifyLoopFull]
      have hle := countT_step_le check v st
      have : countT st - (countT st - countT (stepSt check v st)) =
          countT (stepSt check v st) := by omega
      rw [this]
      exact ih _ (aliveCatch_step check v halive)

lemma classifyLoopFull_char {K V : Type} (check : K → V → Bool)
    (vs : List V) : ∀ (st : List (K × Bool)),
    classifyLoopFull check vs st =
      st.map (fun kf => (kf.1, kf.2 && vs.all (check kf.1))) := by
  induction vs with
  | nil =>
    intro st
    simp [classifyLoopFull]
  | cons v vs ih =>
    intro st
    rw [classifyLoopFull, ih, stepSt, List.map_map]
    congr 1
    funext kf
    simp [Bool.and_assoc]

lemma find_map_pair {K : Type} (p : K → Bool) (l : List K) :
    ((l.map (fun k => (k, p k))).find? (fun kf => kf.2)).map (fun kf => kf.1) =
      l.find? p := by
  induction l with
  | nil => rfl
  | cons k rest ih =>
    cases h : p k with
    | true =>
      rw [List.map_cons, List.find?_cons_of_pos _ (by simpa using h),
        List.find?_cons_of_pos _ h]
      rfl
    | false =>
      rw [List.map_cons, List.find?_cons_of_neg _ (by simp [h]),
        List.find?_cons_of_neg _ (by simp [h])]
      exact ih

lemma countT_init {K : Type} (l : List K) :
    countT (l.map (fun k => (k, true))) = l.length := by
  induction l with
  | nil => rfl
  | cons k rest ih => simp [List.map_cons, countT_cons, ih]

/-- Core classification lemma: over a registry with a catch-all kind,
`strategy_type_for` returns the first kind in registry order whose capability
test accepts every element of the input. -/
lemma strategy_type_for_eq_find {K V : Type} (R : Registry K V)
    (objects : List V) (hca : isCatchAll R) :
    strategy_type_for R objects =
      R.kinds.find? (fun k => objects.all (R.check k)) := by
  obtain ⟨k, hmem, hall⟩ := hca
  have halive : aliveCatch R.check (R.kinds.map (fun k => (k, true))) :=
    ⟨(k, true), List.mem_map.2 ⟨k, hmem, rfl⟩, rfl, hall⟩
  unfold strategy_type_for
  rw [← countT_init R.kinds, classifyLoop_eq_full R.check objects _ halive,
    classifyLoopFull_char, List.map_map]
  have : ((fun kf => (kf.1, kf.2 && objects.all (R.check kf.1))) ∘
      fun k => (k, true)) = fun k => (k, objects.all (R.check k)) := by
    funext k; simp
  rw [this, find_map_pair]

/-! ### Lemmas about the topaz instances -/

lemma depthK_matches_recurrence :
    ∀ k, depthK k = if genListK k = [] then 0
      else ((genListK k).map depthK).foldr max 0 + 1 := by
  intro k
  cases k <;> rfl

lemma topazRegistry_depth_descending :
    topazRegistry.kinds.map depthK = [2, 1, 1, 0] := rfl

lemma contents_length (s : Inst) : (contents s).length = sizeI s := by
  cases s <;> simp [contents, sizeI]

lemma fetchI_eq_get (s : Inst) (i : Nat) : fetchI s i = (contents s).get? i := by
  cases s <;> simp [fetchI, contents, List.get?_map]

lemma kindOf_store (s : Inst) (i : Nat) (v : W) :
    kindOf (storeI s i v) = kindOf s := by
  cases s
  · rfl
  · simp only [storeI]; split <;> rfl
  · simp only [storeI]; split <;> rfl
  · rfl

lemma sizeI_store (s : Inst) (i : Nat) (v : W) :
    sizeI (storeI s i v) = sizeI s := by
  cases s
  · rfl
  · simp only [storeI]; split <;> simp [sizeI]
  · simp only [storeI]; split <;> simp [sizeI]
  · simp [storeI, sizeI]

lemma map_set_comm {α β : Type} (f : α → β) (l : List α) (i : Nat) (a : α) :
    (l.set i a).map f = (l.map f).set i (f a) := by
  induction l generalizing i with
  | nil => simp
  | cons b rest ih => cases i <;> simp [List.set, ih]

lemma contents_store (s : Inst) (i : Nat) (v : W)
    (h : checkK (kindOf s) v = true) :
    contents (storeI s i v) = (contents s).set i v := by
  cases s <;> cases v <;>
    simp_all [kindOf, checkK, storeI, contents, unwrapInt, unwrapFlt,
      map_set_comm]

lemma kindOf_instantiate (K : Kind) (n : Nat) :
    kindOf (instantiateK K n) = K := by
  cases K <;> rfl

lemma sizeI_instantiate (K : Kind) (n : Nat) (h : K ≠ Kind.empty) :
    sizeI (instantiateK K n) = n := by
  cases K <;> simp_all [instantiateK, sizeI]

lemma mapM_get_range {α : Type} (l : List α) :
    ∀ (k j : Nat), j + k ≤ l.length →
    (List.range' j k).mapM l.get? = some ((l.drop j).take k) := by
  intro k
  induction k with
  | zero => intro j h; simp; rfl
  | succ k ih =>
    intro j h
    have hj : j < l.length := by omega
    rw [List.range'_succ, List.mapM_cons, List.get?_eq_get hj,
      ih (j + 1) (by omega)]
    simp only [Option.pure_def, Option.bind_some, Option.bind_eq_bind,
      Option.some_bind]
    rw [List.drop_eq_getElem_cons hj, List.take_succ_cons]
    rfl

lemma fetch_allI_eq (s : Inst) : fetch_allI s = some (contents s) := by
  have hf : fetchI s = fun i => (contents s).get? i :=
    funext (fetchI_eq_get s)
  rw [fetch_allI, sliceI, hf]
  have := mapM_get_range (contents s) (sizeI s - 0) 0
    (by rw [contents_length]; omega)
  rw [this]
  simp only [Nat.sub_zero, List.drop_zero]
  rw [List.take_all_of_le (le_of_eq (contents_length s))]

lemma take_succ_set {α : Type} (l : List α) (j : Nat) (v : α)
    (h : j < l.length) : (l.set j v).take (j + 1) = l.take j ++ [v] := by
  induction l generalizing j with
  | nil => simp at h
  | cons a rest ih =>
    cases j with
    | zero => simp [List.set]
    | succ j =>
      simp only [List.set, List.take_succ_cons, List.cons_append]
      rw [ih j (by simpa using h)]

lemma copy_loop (other : Inst) :
    ∀ (k j : Nat) (tgt : Inst), j + k = sizeI other → sizeI tgt = sizeI other →
    (∀ v ∈ contents other, checkK (kindOf tgt) v = true) →
    ∃ fin, (List.range' j k).foldlM
        (fun t i => (fetchI other i).map (fun v => storeI t i v)) tgt
          = some fin ∧
      contents fin = (contents tgt).take j ++ (contents other).drop j ∧
      kindOf fin = kindOf tgt ∧ sizeI fin = sizeI tgt := by
  intro k
  induction k with
  | zero =>
    intro j tgt hjk hsz hcan
    refine ⟨tgt, by simp, ?_, rfl, rfl⟩
    have h1 : (contents tgt).length = j := by rw [contents_length]; omega
    have h2 : (contents other).length = j := by rw [contents_length]; omega
    rw [← h1, List.take_length, List.drop_eq_nil_of_le (by omega),
      List.append_nil]
  | succ k ih =>
    intro j tgt hjk hsz hcan
    have hj : j < (contents other).length := by rw [contents_length]; omega
    have hfetch : fetchI other j = some ((contents other).get ⟨j, hj⟩) := by
      rw [fetchI_eq_get]; exact List.get?_eq_get hj
    have hmem : (contents other).get ⟨j, hj⟩ ∈ contents other :=
      List.get_mem _ _ _
    have hcheck := hcan _ hmem
    rw [List.range'_succ, List.foldlM_cons, hfetch]
    simp only [Option.map_some, Option.bind_eq_bind, Option.some_bind]
    obtain ⟨fin, hfold, hcont, hkind, hsize⟩ :=
      ih (j + 1) (storeI tgt j ((contents other).get ⟨j, hj⟩))
        (by omega)
        (by rw [sizeI_store]; exact hsz)
        (by rw [kindOf_store]; exact hcan)
    refine ⟨fin, hfold, ?_, by rw [hkind, kindOf_store],
      by rw [hsize, sizeI_store]⟩
    rw [hcont, contents_store tgt j _ hcheck,
      take_succ_set _ _ _ (by rw [contents_length]; omega),
      List.drop_eq_get_cons hj, List.append_assoc]
    rfl

lemma switch_preserves (old : Inst) (K : Kind)
    (hcap : ∀ v ∈ contents old, checkK K v = true) :
    ∃ nw, switch_strategyI old K = some nw ∧ contents nw = contents old := by
  by_cases hK : K = Kind.empty
  · -- the target accepts nothing, so the contents must be empty
    have hnil : contents old = [] := by
      cases hc : contents old with
      | nil => rfl
      | cons v rest =>
        have := hcap v (by rw [hc]; simp)
        rw [hK] at this
        simp [checkK] at this
    have hsz : sizeI old = 0 := by rw [← contents_length, hnil]; rfl
    refine ⟨instantiateK K (sizeI old), ?_, ?_⟩
    · rw [switch_strategyI, copy_fromI, if_pos (by rw [hK, hsz]; rfl)]
      rw [hK, hsz]
      rfl
    · rw [hK, hsz, hnil]
      rfl
  · have hsz : sizeI (instantiateK K (sizeI old)) = sizeI old :=
      sizeI_instantiate K _ hK
    have hkind : kindOf (instantiateK K (sizeI old)) = K :=
      kindOf_instantiate K _
    obtain ⟨fin, hfold, hcont, _, _⟩ :=
      copy_loop old (sizeI old) 0 (instantiateK K (sizeI old))
        (by omega) hsz (by rw [hkind]; exact hcap)
    refine ⟨fin, ?_, ?_⟩
    · rw [switch_strategyI, copy_fromI, if_pos hsz, List.range_eq_range', hsz]
      exact hfold
    · rw [hcont]
      simp

lemma fetchI_isSome (other : Inst) (i : Nat) (h : i < sizeI other) :
    (fetchI other i).isSome = true := by
  rw [fetchI_eq_get,
    List.get?_eq_get (by rw [contents_length]; exact h)]
  rfl

lemma foldCopy_isSome (other : Inst) :
    ∀ (idxs : List Nat) (tgt : Inst), (∀ i ∈ idxs, i < sizeI other) →
    ((idxs.foldlM
      (fun t i => (fetchI other i).map (fun v => storeI t i v)) tgt)).isSome
        = true := by
  intro idxs
  induction idxs with
  | nil => intro tgt _; simp
  | cons i rest ih =>
    intro tgt h
    rw [List.foldlM_cons]
    obtain ⟨v, hv⟩ := Option.isSome_iff_exists.1
      (fetchI_isSome other i (h i (by simp)))
    rw [hv]
    simp only [Option.map_some, Option.bind_eq_bind, Option.some_bind]
    exact ih _ (fun j hj => h j (by simp [hj]))

/-! ### Claim theorems -/

/-- Claim C1 (amended): over a registry containing a catch-all kind,
`strategy_type_for` returns the first kind in registry (depth-descending)
order whose `check_can_handle` accepts every element of the sequence — the
single most specific capable kind; in particular, for a nonempty sequence
consisting only of fixnum values the topaz registry yields `IntStrategy`,
not the catch-all `ObjectStrategy`.  (The nonemptiness restriction is forced
by `classify_empty_sequence_returns_empty_kind`.) -/
theorem classify_returns_first_capable :
    (∀ (K V : Type) (R : Registry K V) (objects : List V), isCatchAll R →
      strategy_type_for R objects =
        R.kinds.find? (fun k => objects.all (R.check k))) ∧
    (∀ vs : List W, vs ≠ [] → vs.all (checkK Kind.int) = true →
      strategy_type_for topazRegistry vs = some Kind.int) := by
  constructor
  · intro K V R objects h
    exact strategy_type_for_eq_find R objects h
  · intro vs hne hall
    rw [strategy_type_for_eq_find _ _
      ⟨Kind.obj, by simp [topazRegistry], fun v => rfl⟩]
    cases vs with
    | nil => exact absurd rfl hne
    | cons v rest =>
      show ([Kind.empty, Kind.int, Kind.flt, Kind.obj].find?
        (fun k => (v :: rest).all (checkK k))) = some Kind.int
      have hempf : (v :: rest).all (checkK Kind.empty) = false := by
        simp [List.all_cons, checkK]
      simp only [List.find?, hempf, hall]

/-- Claim C1 counterexample: the empty sequence consists only of fixnum
values (vacuously), yet classification returns the EmptyStrategy kind (the
first registry entry, capable of every element of the empty sequence), not
IntStrategy. -/
theorem classify_empty_sequence_returns_empty_kind :
    strategy_type_for topazRegistry ([] : List W) = some Kind.empty ∧
      Kind.empty ≠ Kind.int := by decide

/-- Witness for C1: a concrete nonempty fixnum sequence classifies to
IntStrategy. -/
theorem classify_fixnum_witness :
    strategy_type_for topazRegistry [W.fixnum 3, W.fixnum 4] = some Kind.int :=
  classify_returns_first_capable.2 [W.fixnum 3, W.fixnum 4] (by decide)
    (by decide)

/-- Claim C3: over any registry containing a catch-all kind, classification
with the early-exit optimization returns the same kind as the exhaustive
classification that tests every still-capable kind against every element. -/
theorem early_exit_classification_eq_exhaustive :
    ∀ (K V : Type) (R : Registry K V) (objects : List V), isCatchAll R →
      strategy_type_for R objects = classifyExhaustive R objects := by
  intro K V R objects hca
  obtain ⟨k, hmem, hall⟩ := hca
  have halive : aliveCatch R.check (R.kinds.map (fun k => (k, true))) :=
    ⟨(k, true), List.mem_map.2 ⟨k, hmem, rfl⟩, rfl, hall⟩
  unfold strategy_type_for classifyExhaustive
  rw [← countT_init R.kinds, classifyLoop_eq_full R.check objects _ halive]

/-- Witness for C3 at a concrete registry and sequence. -/
theorem early_exit_classification_witness :
    strategy_type_for topazRegistry [W.fixnum 1, W.obj 2] =
      classifyExhaustive topazRegistry [W.fixnum 1, W.obj 2] :=
  early_exit_classification_eq_exhaustive Kind W topazRegistry
    [W.fixnum 1, W.obj 2] ⟨Kind.obj, by simp [topazRegistry], fun v => rfl⟩

/-- Claim C2 (amended): across any sequence of switches each of whose target
kinds can handle every element of the contents — as is the case for every
switch the code itself initiates, since `generalized_strategy_for` picks the
catch-all `ObjectStrategy` from `IntStrategy`/`FloatStrategy` and
`EmptyStrategy` is only ever switched away from at size 0 — `fetch_all()` is
preserved: same length, order and values.  (The capability hypothesis is
forced by `switch_incapable_target_not_preserving`.) -/
theorem switch_chain_preserves_contents :
    ∀ (old : Inst) (Ks : List Kind),
      (∀ K ∈ Ks, ∀ v ∈ contents old, checkK K v = true) →
      ∃ fin, switchChain old Ks = some fin ∧
        fetch_allI fin = fetch_allI old := by
  intro old Ks
  induction Ks generalizing old with
  | nil => intro _; exact ⟨old, by simp [switchChain], rfl⟩
  | cons K Ks ih =>
    intro h
    obtain ⟨nw, hsw, hc⟩ := switch_preserves old K (h K (by simp))
    have hrest : ∀ K2 ∈ Ks, ∀ v ∈ contents nw, checkK K2 v = true := by
      intro K2 hK2 v hv
      exact h K2 (by simp [hK2]) v (hc ▸ hv)
    obtain ⟨fin, hchain, hfa⟩ := ih nw hrest
    refine ⟨fin, ?_, ?_⟩
    · rw [switchChain, List.foldlM_cons, hsw]
      simpa [switchChain] using hchain
    · rw [hfa, fetch_allI_eq, fetch_allI_eq, hc]

/-- Claim C2 counterexample: a switch (performed via `switch_strategy`) of an
int instance holding `[1]` to FloatStrategy returns an instance whose
`fetch_all()` is `[0.0]`, not `[1]`: the store of the fixnum into the float
instance escalates to a further generalized instance, leaving the returned
instance with its default contents. -/
theorem switch_incapable_target_not_preserving :
    switch_strategyI (Inst.intS [1]) Kind.flt = some (Inst.fltS [0]) ∧
      fetch_allI (Inst.fltS [0]) ≠ fetch_allI (Inst.intS [1]) := by decide

/-- Witness for C2: a concrete capable switch chain preserving `[1, 2]`. -/
theorem switch_chain_witness :
    ∃ fin, switchChain (Inst.intS [1, 2]) [Kind.obj] = some fin ∧
      fetch_allI fin = fetch_allI (Inst.intS [1, 2]) :=
  switch_chain_preserves_contents (Inst.intS [1, 2]) [Kind.obj] (by decide)

/-- Claim C4 (amended): during a switch the Host's strategy reference is
replaced with the new instance *before* the element-wise Copy/Convert
transfer begins (the assignment is the first observable action of
`instantiate_and_switch`), and it is assigned exactly once; no reader
observes a half-switched state only because execution is single-threaded,
not because the swap happens after the copy. -/
theorem switch_assigns_reference_before_copy :
    ∀ (old : Inst) (K : Kind),
      (switchTrace old K).head? = some Ev.assignRef ∧
      ((switchTrace old K).tail.all
        (fun e => match e with | Ev.assignRef => false | _ => true)) = true := by
  intro old K
  refine ⟨rfl, ?_⟩
  rw [switchTrace]
  simp only [List.tail_cons]
  split
  · rw [List.all_eq_true]
    intro e he
    rcases List.mem_append.1 he with h1 | h1
    · obtain ⟨i, _, rfl⟩ := List.mem_map.1 h1
      rfl
    · rcases List.mem_cons.1 h1 with rfl | h2
      · rfl
      · rcases List.mem_cons.1 h2 with rfl | h3
        · rfl
        · simp at h3
  · rfl

/-- Claim C4 counterexample: in the concrete switch of an int instance
holding `[1]` to ObjectStrategy, the element store events do not all precede
the host reference assignment — the assignment comes first. -/
theorem switch_reference_not_after_copy :
    storesPrecedeAssign (switchTrace (Inst.intS [1]) Kind.obj) = false := by
  decide

/-- Claim C5 (code bug): `SingleValueStrategy.insert` indexes the incoming
list with the unbound name `handled`, so inserting a value identical to the
held constant raises NameError instead of extending the run (the claim, and
the spec, expect the size to grow to 2 here). -/
theorem single_value_insert_raises_name_error :
    insertSV (7 : Nat) 1 0 [7] = Except.error PyErr.nameError ∧
      insertSV (7 : Nat) 1 0 [7] ≠ Except.ok 2 := by
  refine ⟨rfl, ?_⟩
  intro h
  simp [insertSV] at h

/-- Claim C6 (amended): `delete(i, i)` on an empty range is a no-op exactly
when the policy's range check (and the slice non-negativity assertion)
passes: under the unchecked policy for every `i ≥ 0` on storage-backed kinds
and for every `i` on SingleValue and Empty; under the checked policy exactly
for `0 ≤ i < size` — in particular `i = size` raises IndexError there, and
on EmptyStrategy (size 0) the checked variant always raises. -/
theorem empty_range_delete_noop_when_checks_pass :
    (∀ (U : Type) (st : List U) (i : Int), 0 ≤ i → i < (st.length : Int) →
      deleteS Policy.checked st i i = Except.ok st) ∧
    (∀ (U : Type) (st : List U) (i : Int), 0 ≤ i →
      deleteS Policy.unchecked st i i = Except.ok st) ∧
    (∀ (size i : Int), 0 ≤ i → i < size →
      deleteSV Policy.checked size i i = Except.ok size) ∧
    (∀ (size i : Int), deleteSV Policy.unchecked size i i = Except.ok size) ∧
    (∀ i : Int, deleteE Policy.unchecked i i = Except.ok ()) ∧
    (∀ i : Int, deleteE Policy.checked i i = Except.error PyErr.indexError) := by
  have hrange : ∀ (size i : Int), 0 ≤ i → i < size →
      check_index_rangeP Policy.checked size i i = Except.ok () := by
    intro size i h1 h2
    rw [check_index_rangeP, if_neg (by omega : ¬ i < i), check_index,
      if_neg (by omega : ¬ (i < 0 ∨ size ≤ i))]
  have hdel : ∀ (U : Type) (st : List U) (i : Int),
      pyDelSlice st i i = st := by
    intro U st i
    rw [pyDelSlice]
    simp [List.take_append_drop]
  refine ⟨?_, ?_, ?_, ?_, ?_, ?_⟩
  · intro U st i h1 h2
    rw [deleteS, hrange _ _ h1 h2, if_neg (by omega : ¬ (i < 0 ∨ i < 0)), hdel]
  · intro U st i h1
    rw [deleteS]
    show (if i < 0 ∨ i < 0 then _ else _) = _
    rw [if_neg (by omega : ¬ (i < 0 ∨ i < 0)), hdel]
  · intro size i h1 h2
    rw [deleteSV, hrange _ _ h1 h2]
    simp
  · intro size i
    rw [deleteSV]
    simp [check_index_rangeP]
  · intro i
    rfl
  · intro i
    rw [deleteE, check_index_rangeP, if_neg (by omega : ¬ i < i), check_index]
    by_cases h : i < 0
    · rw [if_pos (Or.inl h)]
    · rw [if_pos (Or.inr (by omega))]

/-- Claim C6 counterexample: under the checked policy, `delete(1, 1)` on a
storage-backed instance of size 1 — an empty range at `i = size()` — raises
IndexError instead of succeeding. -/
theorem empty_range_delete_raises_at_size :
    deleteS Policy.checked ([0] : List Nat) 1 1 =
      Except.error PyErr.indexError := rfl

/-- Witness for C6 at concrete inputs. -/
theorem empty_range_delete_witness :
    deleteS Policy.checked [(5 : Nat)] 0 0 = Except.ok [5] :=
  empty_range_delete_noop_when_checks_pass.1 Nat [5] 0 (by decide) (by decide)

/-- Claim C7: under the checked indexing policy, `fetch(i)` on a
storage-backed or SingleValue instance fails (with IndexError) exactly when
`i < 0` or `i ≥ size()`, and for in-range `i` returns the element at
position `i` (the wrapped storage slot, resp. the held constant); `fetch`
takes the payload as a value and returns only the element, so the instance
is unmodified. -/
theorem checked_fetch_ok_iff_in_bounds :
    (∀ (U A : Type) (wrap : U → A) (st : List U) (i : Int),
      ((fetchS wrap Policy.checked st i = Except.error PyErr.indexError) ↔
        (i < 0 ∨ (st.length : Int) ≤ i)) ∧
      (∀ h : i.toNat < st.length, 0 ≤ i →
        fetchS wrap Policy.checked st i =
          Except.ok (wrap (st.get ⟨i.toNat, h⟩)))) ∧
    (∀ (A : Type) (c : A) (size i : Int),
      ((fetchSV Policy.checked c size i = Except.error PyErr.indexError) ↔
        (i < 0 ∨ size ≤ i)) ∧
      (0 ≤ i → i < size → fetchSV Policy.checked c size i = Except.ok c)) := by
  have hget : ∀ (U : Type) (st : List U) (i : Int) (h : i.toNat < st.length),
      0 ≤ i → pyGetElem st i = Except.ok (st.get ⟨i.toNat, h⟩) := by
    intro U st i h h0
    rw [pyGetElem]
    simp only [if_neg (by omega : ¬ i < 0)]
    rw [List.get?_eq_get h]
  constructor
  · intro U A wrap st i
    have hok : ∀ (h : i.toNat < st.length), 0 ≤ i →
        fetchS wrap Policy.checked st i =
          Except.ok (wrap (st.get ⟨i.toNat, h⟩)) := by
      intro h h0
      have hlt : i < (st.length : Int) := by omega
      rw [fetchS]
      show (match check_index (st.length : Int) i with
        | .error e => Except.error e
        | .ok _ => match pyGetElem st i with
          | .error e => Except.error e
          | .ok u => Except.ok (wrap u)) = _
      rw [check_index, if_neg (by omega : ¬ (i < 0 ∨ (st.length : Int) ≤ i)),
        hget U st i h h0]
    constructor
    · constructor
      · intro herr
        by_contra hc
        push_neg at hc
        obtain ⟨h0, hlt⟩ := hc
        have h0' : 0 ≤ i := by omega
        have h : i.toNat < st.length := by omega
        rw [hok h h0'] at herr
        simp at herr
      · intro hoob
        rw [fetchS]
        show (match check_index (st.length : Int) i with
          | .error e => Except.error e
          | .ok _ => match pyGetElem st i with
            | .error e => Except.error e
            | .ok u => Except.ok (wrap u)) = _
        rw [check_index, if_pos hoob]
    · exact hok
  · intro A c size i
    constructor
    · constructor
      · intro herr
        by_contra hc
        push_neg at hc
        rw [fetchSV] at herr
        show False
        rw [show check_index_fetchP Policy.checked size i = check_index size i
            from rfl, check_index,
          if_neg (by omega : ¬ (i < 0 ∨ size ≤ i))] at herr
        simp at herr
      · intro hoob
        rw [fetchSV]
        show (match check_index size i with
          | .error e => Except.error e
          | .ok _ => Except.ok c) = _
        rw [check_index, if_pos hoob]
    · intro h0 hlt
      rw [fetchSV]
      show (match check_index size i with
        | .error e => Except.error e
        | .ok _ => Except.ok c) = _
      rw [check_index, if_neg (by omega : ¬ (i < 0 ∨ size ≤ i))]

/-- Witness for C7 at concrete inputs. -/
theorem checked_fetch_witness :
    fetchS (fun u : Nat => u + 10) Policy.checked [4, 5] 1 = Except.ok 15 :=
  (checked_fetch_ok_iff_in_bounds.1 Nat Nat (fun u => u + 10) [4, 5] 1).2
    (by decide) (by decide)

/-- Claim C8: `TaggingStrategy.check_can_handle(v)` holds iff `v` is
identically the distinguished tagged object, or `v` is of the contained
primitive type and its unboxed form differs from the reserved sentinel
pattern; consequently a real primitive whose unboxed form equals the
sentinel (and which is not the tagged object) is rejected, forcing
escalation instead of conflation. -/
theorem tagging_check_can_handle_spec :
    ∀ (A P : Type) [DecidableEq A] [DecidableEq P]
      (contained : A → Bool) (unwrap : A → P) (tagged : A) (sentinel : P)
      (v : A),
      (taggingCheckCanHandle contained unwrap tagged sentinel v = true ↔
        (v = tagged ∨ (contained v = true ∧ unwrap v ≠ sentinel))) ∧
      (v ≠ tagged → contained v = true → unwrap v = sentinel →
        taggingCheckCanHandle contained unwrap tagged sentinel v = false) := by
  intro A P instA instP contained unwrap tagged sentinel v
  constructor
  · rw [taggingCheckCanHandle]
    simp [decide_eq_true_iff]
  · intro hne hcont hsent
    rw [taggingCheckCanHandle]
    simp [hne, hcont, hsent]

/-- Witness for C8: with contained type accepting everything, identity
unwrap, tagged object `0` and sentinel `5`, the real primitive `5` (equal to
the sentinel, distinct from the tagged object) is rejected. -/
theorem tagging_check_witness :
    taggingCheckCanHandle (fun _ : Nat => true) (fun x : Nat => x) 0 5 5 =
      false :=
  (tagging_check_can_handle_spec Nat Nat (fun _ => true) (fun x => x) 0 5
    5).2 (by decide) rfl rfl

/-- Claim C9: `StrategyWithStorage.insert` clamps a start position beyond the
current size down to the size, so for handleable values an insert at any
`start > size()` behaves exactly like an append at `size()`; the method
consults no `check_index_*` hook of the indexing mixin and always returns
normally (never OutOfRange), under either policy. -/
theorem storage_insert_clamps_start :
    ∀ (U A : Type) (canH : A → Bool) (unwrap : A → U) (st : List U)
      (start : Int) (list_w : List A),
      (list_w.all canH = true → (st.length : Int) < start →
        insertS canH unwrap st start list_w =
          insertS canH unwrap st (st.length : Int) list_w) ∧
      (∃ r, insertS canH unwrap st start list_w = Except.ok r) := by
  intro U A canH unwrap st start list_w
  constructor
  · intro _ hgt
    rw [insertS, insertS, if_pos hgt,
      if_neg (by omega : ¬ (st.length : Int) < (st.length : Int))]
  · exact ⟨_, rfl⟩

/-- Witness for C9 at concrete inputs. -/
theorem storage_insert_clamp_witness :
    insertS (fun _ : Nat => true) (fun a : Nat => a) [1] 5 [2] =
      insertS (fun _ : Nat => true) (fun a : Nat => a) [1] 1 [2] :=
  (storage_insert_clamps_start Nat Nat (fun _ => true) (fun a => a) [1] 5
    [2]).1 (by decide) (by decide)

/-- Claim C10: whenever `generalized_strategy_for` selects a target kind for
a switch, the freshly instantiated target (created with the old instance's
size) reports exactly that size — the Empty kind, whose capability test
rejects every value, can never be selected — so the size-equality assertion
guarding `copy_from` passes and the switch completes. -/
theorem switch_size_assertion_holds :
    ∀ (old : Inst) (v : W) (K : Kind),
      generalized_strategy_forK (kindOf old) v = some K →
      sizeI (instantiateK K (sizeI old)) = sizeI old ∧ K ≠ Kind.empty ∧
        (switch_strategyI old K).isSome = true := by
  intro old v K hfind
  have hcheck : checkK K v = true := by
    have := List.find?_some hfind
    simpa using this
  have hKne : K ≠ Kind.empty := by
    intro h
    rw [h] at hcheck
    simp [checkK] at hcheck
  have hsz : sizeI (instantiateK K (sizeI old)) = sizeI old :=
    sizeI_instantiate K _ hKne
  refine ⟨hsz, hKne, ?_⟩
  rw [switch_strategyI, copy_fromI, if_pos hsz]
  exact foldCopy_isSome old _ _
    (fun i hi => by rw [← hsz]; exact List.mem_range.1 hi)

/-- Witness for C10 at a concrete switch. -/
theorem switch_size_assertion_witness :
    sizeI (instantiateK Kind.obj (sizeI (Inst.intS [1]))) =
        sizeI (Inst.intS [1]) ∧
      Kind.obj ≠ Kind.empty ∧
      (switch_strategyI (Inst.intS [1]) Kind.obj).isSome = true :=
  switch_size_assertion_holds (Inst.intS [1]) (W.flt 0) Kind.obj (by decide)

end RStrategies
